import Mathlib

/-!
Shallow embedding of the maggma pipeline core:
  * `src/maggma/cli/multiprocessing.py` — `AsyncBackPressuredMap`, `grouper`, `multi`
  * `src/src/maggma/builders/projection_builder.py` — `Projection_Builder`

Python records (dicts) are modelled as insertion-ordered association lists with
the usual dict operations (`dget`, `dset`, `ddel`, `dupdate`).  Stateful async
code is modelled as an explicit transition system on counters; fallible code
returns `Option`/`Except`.
-/

/-- A Python dict: insertion-ordered association list.  Operations below keep
Python's semantics: lookup finds the (unique) binding, assignment to an existing
key replaces the value in place, assignment to a fresh key appends. -/
abbrev Dict (F V : Type) := List (F × V)

/-- Python `d[k]` as an `Option` (`none` = `KeyError`). -/
def dget {F V : Type} [DecidableEq F] (d : Dict F V) (k : F) : Option V :=
  (d.find? (fun p => decide (p.1 = k))).map Prod.snd

/-- Python `d[k] = v`: replace in place if the key exists, else append. -/
def dset {F V : Type} [DecidableEq F] (d : Dict F V) (k : F) (v : V) : Dict F V :=
  if d.any (fun p => decide (p.1 = k)) then
    d.map (fun p => if p.1 = k then (k, v) else p)
  else d ++ [(k, v)]

/-- Python `if k in d: del d[k]` (a no-op when the key is absent). -/
def ddel {F V : Type} [DecidableEq F] (d : Dict F V) (k : F) : Dict F V :=
  d.filter (fun p => decide (p.1 ≠ k))

/-- Python `d.update(e)`: set every binding of `e` into `d`, in `e`'s order. -/
def dupdate {F V : Type} [DecidableEq F] (d e : Dict F V) : Dict F V :=
  e.foldl (fun acc p => dset acc p.1 p.2) d

/-- A well-formed dict has pairwise distinct keys (true of every dict Python
ever builds). -/
def DictWF {F V : Type} (d : Dict F V) : Prop :=
  (d.map Prod.fst).Nodup

/-- The value of field `f` in the *last* binding of `d` that mentions `f`
(used to express last-write-wins merge semantics). -/
def lastVal {F V : Type} [DecidableEq F] (d : Dict F V) (f : F) : Option V :=
  (d.reverse.find? (fun p => decide (p.1 = f))).map Prod.snd

/-- The value contributed for field `f` by the last-arriving record of the
group `rs` that contains `f` (records listed in arrival order). -/
def lastContrib {F V : Type} [DecidableEq F] (rs : List (Dict F V)) (f : F) : Option V :=
  rs.reverse.findSome? (fun r => dget r f)

/-- Like `lastContrib` but reading each record back-to-front (`lastVal`);
coincides with `lastContrib` on well-formed records. -/
def lastWrite {F V : Type} [DecidableEq F] (rs : List (Dict F V)) (f : F) : Option V :=
  rs.reverse.findSome? (fun r => lastVal r f)

-- ---------------------------------------------------------------------------
-- cli/multiprocessing.py
-- ---------------------------------------------------------------------------

/-- Result of the executor future for one item: the transform returned a value
or raised an exception. -/
inductive Outcome (E B : Type) where
  | ok (b : B)
  | err (e : E)
deriving DecidableEq

/-- `process_and_release` (multiprocessing.py, lines 35-39), applied to the
semaphore counter `sem` (units currently available) and the future's outcome:
`await future` either returns (then `self.back_pressure.release()` runs and the
future is returned) or raises (the exception propagates to the awaiter; the
release line is never reached because there is no `try`/`finally`). -/
def process_and_release {E B : Type} (sem : Nat) (out : Outcome E B) : Nat × Except E B :=
  match out with
  | Outcome.ok b => (sem + 1, Except.ok b)
  | Outcome.err e => (sem, Except.error e)

/-- State of one `AsyncBackPressuredMap` run:
`pending` items not yet pulled from the source iterator, `available` units of
the `BoundedSemaphore`, `held` units acquired in `__anext__` whose
`process_and_release` coroutine has not started yet, and `outstanding`
transforms submitted to the executor and not yet completed. -/
structure MapState where
  pending : Nat
  available : Nat
  held : Nat
  outstanding : Nat
deriving DecidableEq

/-- Interleaved steps of `AsyncBackPressuredMap.__anext__` and
`process_and_release` (multiprocessing.py, lines 26-41):
* `anext`: `await self.back_pressure.acquire()` then `next(self.iterator)`
  succeeds, handing out a `process_and_release` coroutine;
* `exhaust`: acquire succeeds but the iterator is exhausted
  (`StopIteration` → `StopAsyncIteration`; the acquired unit is not released);
* `start`: an awaited coroutine runs `loop.run_in_executor`, submitting the
  transform to the pool;
* `completeOk`: a submitted transform returns; `self.back_pressure.release()`;
* `completeErr`: a submitted transform raises; the release line is skipped. -/
inductive MapStep : MapState → MapState → Prop where
  | anext (s : MapState) : 0 < s.available → 0 < s.pending →
      MapStep s ⟨s.pending - 1, s.available - 1, s.held + 1, s.outstanding⟩
  | exhaust (s : MapState) : 0 < s.available → s.pending = 0 →
      MapStep s ⟨0, s.available - 1, s.held, s.outstanding⟩
  | start (s : MapState) : 0 < s.held →
      MapStep s ⟨s.pending, s.available, s.held - 1, s.outstanding + 1⟩
  | completeOk (s : MapState) : 0 < s.outstanding →
      MapStep s ⟨s.pending, s.available + 1, s.held, s.outstanding - 1⟩
  | completeErr (s : MapState) : 0 < s.outstanding →
      MapStep s ⟨s.pending, s.available, s.held, s.outstanding - 1⟩

/-- Initial state of a run over `L` source items with
`BoundedSemaphore(builder.chunk_size)` where `chunk_size = n`. -/
def initState (n L : Nat) : MapState := ⟨L, n, 0, 0⟩

/-- States reachable during a pipeline run with capacity `n` and `L` items. -/
def Reachable (n L : Nat) (s : MapState) : Prop :=
  Relation.ReflTransGen MapStep (initState n L) s

/-- `zip_longest(*([iter(xs)] * n), fillvalue=fill)` as consumed by
`grouper`: successive rounds pull `n` items from the shared iterator, the last
round padding with `fill` (multiprocessing.py, lines 49-50). -/
def zipLongestChunks {α : Type} (n : Nat) (fill : α) (xs : List α) : List (List α) :=
  if hn : n = 0 then []
  else
    match xs with
    | [] => []
    | x :: rest =>
      ((x :: rest).take n ++ List.replicate (n - (x :: rest).length) fill) ::
        zipLongestChunks n fill ((x :: rest).drop n)
termination_by xs.length
decreasing_by simp [List.length_drop]; omega

/-- `grouper` (multiprocessing.py, lines 44-54): chunks the sequence via
`zip_longest` and drops every element `g` with `g is None` from each chunk
before yielding it. -/
def grouper {α : Type} (xs : List (Option α)) (n : Nat) (fill : Option α) :
    List (List (Option α)) :=
  (zipLongestChunks n fill xs).map (fun g => g.filter (fun x => x.isSome))

-- ---------------------------------------------------------------------------
-- builders/projection_builder.py : Projection_Builder
-- ---------------------------------------------------------------------------

/-- One step of filling the Python dict `items_sorted_by_key`
(projection_builder.py, lines 216-220): if `kv` is not yet a key of the dict a
fresh singleton group is inserted (at the end, by dict insertion order),
otherwise the record is appended to `kv`'s group. -/
def addToGroup {V R : Type} [DecidableEq V] (gs : List (V × List R)) (kv : V) (r : R) :
    List (V × List R) :=
  match gs with
  | [] => [(kv, [r])]
  | (k, rs) :: rest =>
    if kv = k then (k, rs ++ [r]) :: rest
    else (k, rs) :: addToGroup rest kv r

/-- The grouping loop of `process_item` (projection_builder.py, lines 215-220):
reads `i[key]` of every item in order (`none` models a `KeyError`). -/
def sortByKey {F V : Type} [DecidableEq F] [DecidableEq V] (key : F)
    (items : List (Dict F V)) : Option (List (V × List (Dict F V))) :=
  items.foldlM (fun gs i => (dget i key).map (fun kv => addToGroup gs kv i)) []

/-- The merge loop of `process_item` (projection_builder.py, lines 225-227):
`target_doc = {}` then `target_doc.update(i)` over the group in arrival
order. -/
def mergeGroup {F V : Type} [DecidableEq F] (rs : List (Dict F V)) : Dict F V :=
  rs.foldl dupdate []

/-- `Projection_Builder.process_item` (projection_builder.py, lines 200-233):
group the items by their `key` value, merge each group last-write-wins, and
finally re-set the key field to the group's key value. -/
def process_item {F V : Type} [DecidableEq F] [DecidableEq V] (key : F)
    (items : List (Dict F V)) : Option (List (Dict F V)) :=
  (sortByKey key items).map (fun gs => gs.map (fun g => dset (mergeGroup g.2) key g.1))

/-- The stamping loop of `Projection_Builder.update_targets`
(projection_builder.py, lines 249-251): the single timestamp
`target_insertion_time = datetime.utcnow()` is the parameter `t`, written into
every item's `target.last_updated_field`. -/
def stamp_items {F V : Type} [DecidableEq F] (luf : F) (t : V)
    (items : List (Dict F V)) : List (Dict F V) :=
  items.map (fun item => dset item luf t)

/-- `Projection_Builder.update_targets` (projection_builder.py, lines 235-254),
returning the list of `target.update(...)` sink calls it performs: one batched
call with the stamped items when `num_items > 0`, none otherwise. -/
def update_targets {F V : Type} [DecidableEq F] (luf : F) (t : V)
    (items : List (Dict F V)) : List (List (Dict F V)) :=
  let num_items := items.length
  if 0 < num_items then [stamp_items luf t items] else []

/-- A source (or target) store as seen by `__init__`: only its `key` matters. -/
structure StoreCfg (F : Type) where
  key : F
deriving DecidableEq

/-- The `source_stores` argument: a Python list of stores, or a value of some
other type. -/
inductive SrcArg (F : Type) where
  | stores (ss : List (StoreCfg F))
  | nonList
deriving DecidableEq

/-- One element of the `fields_to_project` argument: a list of field names, a
dict mapping target field name to source field name, or a value of some other
type. -/
inductive ProjSpecArg (F : Type) where
  | plist (fs : List F)
  | pdict (m : Dict F F)
  | other
deriving DecidableEq

/-- The `fields_to_project` argument: `None` (the default), a Python list of
per-source specs, or a value of some other type. -/
inductive FTPArg (F : Type) where
  | defaultNone
  | specs (fs : List (ProjSpecArg F))
  | nonList
deriving DecidableEq

/-- The exceptions `Projection_Builder.__init__` can raise. -/
inductive InitError where
  | typeErrorSourceStores
  | valueErrorLengthMismatch
  | typeErrorFTPNotList
  | typeErrorFTPElem
deriving DecidableEq

/-- Translation of one `fields_to_project` element into a projection mapping
(projection_builder.py, lines 81-89): a list `f` becomes `{i: i for i in f}`,
a dict is kept, anything else raises `TypeError`. -/
def projSpecToMapping {F : Type} [DecidableEq F] :
    ProjSpecArg F → Except InitError (Dict F F)
  | ProjSpecArg.plist fs => Except.ok (fs.foldl (fun d i => dset d i i) [])
  | ProjSpecArg.pdict m => Except.ok m
  | ProjSpecArg.other => Except.error InitError.typeErrorFTPElem

/-- `Projection_Builder.__init__` (projection_builder.py, lines 25-100).
Returns the trace of `ensure_index` store calls (the only store I/O the
constructor performs, via `ensure_indexes`, line 100) together with either the
raised exception or the computed `projection_mapping` (`none` = Python `None`).
Program order: the `source_stores` type check (line 64), then the
`fields_to_project` checks (lines 66-74), then the mapping construction
(lines 77-93), and only then `ensure_indexes`. -/
def Projection_Builder_init {F : Type} [DecidableEq F] (source_stores : SrcArg F)
    (target_key : F) (fields_to_project : FTPArg F) :
    List F × Except InitError (List (Option (Dict F F))) :=
  match source_stores with
  | SrcArg.nonList => ([], Except.error InitError.typeErrorSourceStores)
  | SrcArg.stores ss =>
    match fields_to_project with
    | FTPArg.specs fs =>
      if ss.length ≠ fs.length then ([], Except.error InitError.valueErrorLengthMismatch)
      else
        match fs.mapM projSpecToMapping with
        | Except.error e => ([], Except.error e)
        | Except.ok ms =>
          let ms2 := (ss.zip ms).map
            (fun p => if p.2.isEmpty then p.2 else dset p.2 target_key p.1.key)
          (ss.map StoreCfg.key, Except.ok (ms2.map some))
    | FTPArg.nonList => ([], Except.error InitError.typeErrorFTPNotList)
    | FTPArg.defaultNone => (ss.map StoreCfg.key, Except.ok (List.replicate ss.length none))

/-- A source store as seen by `get_items`: its key field name, its
last-updated field name, and its documents.  Field values are `Option W`
(`none` models the Python value `None`). -/
structure SourceStoreModel (F W : Type) where
  key : F
  last_updated_field : F
  docs : List (Dict F (Option W))

/-- Modelled from the spec: `maggma.utils.grouper` (imported by
projection_builder.py but not part of this repository snapshot) is the
documented `zip_longest` grouper recipe — "batches it into fixed-size groups
(with a sentinel/padding value for the final partial group)" (Chunker/Grouper
contract), with no filtering of its own. -/
def utils_grouper {α : Type} (xs : List α) (n : Nat) (fill : α) : List (List α) :=
  zipLongestChunks n fill xs

/-- The key chunks queried by `get_items` (projection_builder.py, lines
142-143): each `grouper` chunk with `[k for k in chunked_keys if k is not
None]` applied. -/
def chunked_keys {W : Type} (keys : List (Option W)) (n : Nat) :
    List (List (Option W)) :=
  (utils_grouper keys n none).map (fun ck => ck.filter (fun k => k.isSome))

/-- `store.query(criteria={store.key: {"$in": chunked_keys}}, ...)`
(projection_builder.py, lines 171-173): returns the docs whose key field is
present and has a value in the chunk (no `None` in the chunk, so a missing
field never matches). -/
def query_in {F W : Type} [DecidableEq F] [DecidableEq W] (sk : F)
    (ck : List (Option W)) (docs : List (Dict F (Option W))) :
    List (Dict F (Option W)) :=
  docs.filter (fun d =>
    match dget d sk with
    | some v => decide (v ∈ ck)
    | none => false)

/-- The per-doc item construction of `get_items` (projection_builder.py, lines
174-188): `deepcopy(d)` when all properties are projected, else the renamed
projection `{k: get(d, v)}` (`pydash.get` returns `None` for a missing path);
then `_id` and the store's last-updated field are deleted and
`item[self.target.key] = d[store.key]` tags the item (`none` = `KeyError` on a
missing key field). -/
def build_item {F W : Type} [DecidableEq F] (target_key sk luf idf : F)
    (proj : Dict F F) (d : Dict F (Option W)) : Option (Dict F (Option W)) :=
  let item := if proj.isEmpty then d
    else proj.foldl (fun it p => dset it p.1 ((dget d p.2).getD none)) []
  (dget d sk).map (fun kv => dset (ddel (ddel item idf) luf) target_key kv)

/-- The items one chunk of key values contributes (projection_builder.py,
lines 147-198): per source store in order, query by the chunk and build the
tagged items. -/
def items_for_chunk {F W : Type} [DecidableEq F] [DecidableEq W]
    (target_key idf : F) (stores : List (SourceStoreModel F W × Dict F F))
    (ck : List (Option W)) : List (Dict F (Option W)) :=
  stores.foldl (fun acc sp =>
    acc ++ (query_in sp.1.key ck sp.1.docs).filterMap
      (build_item target_key sp.1.key sp.1.last_updated_field idf sp.2)) []

/-- `Projection_Builder.get_items` (projection_builder.py, lines 111-198) for
a discovered key list `keys` (which may contain Python `None`): the chunks of
items it yields. -/
def get_items {F W : Type} [DecidableEq F] [DecidableEq W] (target_key idf : F)
    (stores : List (SourceStoreModel F W × Dict F F)) (keys : List (Option W))
    (n : Nat) : List (List (Dict F (Option W))) :=
  (chunked_keys keys n).map (items_for_chunk target_key idf stores)

-- ---------------------------------------------------------------------------
-- Basic dict lemmas
-- ---------------------------------------------------------------------------

theorem dget_nil {F V : Type} [DecidableEq F] (k : F) :
    dget ([] : Dict F V) k = none := rfl

theorem dget_cons {F V : Type} [DecidableEq F] (p : F × V) (d : Dict F V) (k : F) :
    dget (p :: d) k = if p.1 = k then some p.2 else dget d k := by
  by_cases h : p.1 = k <;> simp [dget, List.find?_cons, h]

theorem dget_append {F V : Type} [DecidableEq F] (d e : Dict F V) (k : F) :
    dget (d ++ e) k = (dget d k).or (dget e k) := by
  induction d with
  | nil => simp [dget_nil]
  | cons p rest ih =>
    by_cases h : p.1 = k <;> simp [dget_cons, h, ih]

theorem dget_map_replace {F V : Type} [DecidableEq F] (d : Dict F V) (k k' : F) (v : V) :
    dget (d.map (fun p => if p.1 = k then (k, v) else p)) k' =
      if k' = k then (if d.any (fun p => decide (p.1 = k)) then some v else none)
      else dget d k' := by
  induction d with
  | nil => by_cases hk : k' = k <;> simp [dget_nil, hk]
  | cons p rest ih =>
    by_cases hp : p.1 = k
    · by_cases hk : k' = k
      · simp [List.map_cons, hp, hk, dget_cons, List.any_cons]
      · have hk2 : ¬ k = k' := fun h => hk h.symm
        simp [List.map_cons, hp, hk, hk2, dget_cons, List.any_cons, ih]
    · by_cases hpk : p.1 = k'
      · have hkk : ¬ k' = k := fun h => hp (hpk.trans h)
        simp [List.map_cons, hp, hpk, dget_cons, hkk]
      · have hd : decide (p.1 = k) = false := decide_eq_false hp
        rw [List.map_cons, if_neg hp, dget_cons, if_neg hpk, ih]
        simp only [List.any_cons, hd, Bool.false_or]
        rw [dget_cons, if_neg hpk]

theorem dget_dset {F V : Type} [DecidableEq F] (d : Dict F V) (k k' : F) (v : V) :
    dget (dset d k v) k' = if k' = k then some v else dget d k' := by
  unfold dset
  by_cases hany : d.any (fun p => decide (p.1 = k)) = true
  · rw [if_pos hany, dget_map_replace]
    by_cases hk : k' = k <;> simp [hk, hany]
  · rw [if_neg hany, dget_append]
    have hnone : dget d k = none := by
      unfold dget
      rw [List.find?_eq_none.mpr]
      · rfl
      · intro p hp
        have := (List.any_eq_false.mp (Bool.eq_false_iff.mpr hany)) p hp
        simpa using this
    by_cases hk : k' = k
    · subst hk
      simp [hnone, dget_cons]
    · have hk2 : ¬ k = k' := fun h => hk h.symm
      have h1 : dget [(k, v)] k' = none := by
        simp [dget_cons, dget_nil, hk2]
      simp [hk, h1]

theorem dget_eq_none_iff_not_key {F V : Type} [DecidableEq F] (d : Dict F V) (f : F) :
    dget d f = none ↔ ∀ p ∈ d, p.1 ≠ f := by
  induction d with
  | nil => simp [dget_nil]
  | cons p rest ih =>
    by_cases hp : p.1 = f <;> simp [dget_cons, hp, ih]

theorem dget_eq_none_of_not_mem_keys {F V : Type} [DecidableEq F] {d : Dict F V} {f : F}
    (h : f ∉ d.map Prod.fst) : dget d f = none := by
  rw [dget_eq_none_iff_not_key]
  intro p hp hpf
  exact h (List.mem_map.mpr ⟨p, hp, hpf⟩)

theorem dget_some_mem {F V : Type} [DecidableEq F] {d : Dict F V} {k : F} {v : V}
    (h : dget d k = some v) : (k, v) ∈ d := by
  unfold dget at h
  rcases Option.map_eq_some'.mp h with ⟨p, hp, hv⟩
  have h1 : p.1 = k := by simpa using List.find?_some hp
  have h2 : p ∈ d := List.mem_of_find?_eq_some hp
  have : p = (k, v) := by
    cases p
    simp only at h1 hv
    simp [h1, hv]
  rwa [this] at h2

theorem dget_isSome_iff_mem_keys {F V : Type} [DecidableEq F] (d : Dict F V) (f : F) :
    (dget d f).isSome = true ↔ f ∈ d.map Prod.fst := by
  constructor
  · intro h
    rcases Option.isSome_iff_exists.mp h with ⟨v, hv⟩
    exact List.mem_map.mpr ⟨(f, v), dget_some_mem hv, rfl⟩
  · intro h
    rw [Option.isSome_iff_ne_none]
    intro hnone
    rcases List.mem_map.mp h with ⟨p, hp, hpf⟩
    exact (dget_eq_none_iff_not_key d f).mp hnone p hp hpf

theorem lastVal_nil {F V : Type} [DecidableEq F] (f : F) :
    lastVal ([] : Dict F V) f = none := rfl

theorem lastVal_cons {F V : Type} [DecidableEq F] (p : F × V) (d : Dict F V) (f : F) :
    lastVal (p :: d) f = (lastVal d f).or (if p.1 = f then some p.2 else none) := by
  unfold lastVal
  rw [List.reverse_cons, List.find?_append]
  by_cases hp : p.1 = f <;>
    cases h : List.find? (fun p => decide (p.1 = f)) (List.reverse d) <;>
      simp [hp, h]

theorem dget_dupdate {F V : Type} [DecidableEq F] (d e : Dict F V) (f : F) :
    dget (dupdate d e) f = (lastVal e f).or (dget d f) := by
  induction e generalizing d with
  | nil => simp [dupdate, lastVal_nil]
  | cons p rest ih =>
    have h1 : dupdate d (p :: rest) = dupdate (dset d p.1 p.2) rest := rfl
    rw [h1, ih, dget_dset, lastVal_cons]
    by_cases hp : p.1 = f
    · cases hlv : lastVal rest f <;> simp [hp, hlv, if_pos hp.symm]
    · have hp2 : ¬ f = p.1 := fun h => hp h.symm
      cases hlv : lastVal rest f <;> simp [hp, hp2, hlv]

theorem lastWrite_nil {F V : Type} [DecidableEq F] (f : F) :
    lastWrite ([] : List (Dict F V)) f = none := rfl

theorem findSome?_or_single {α β : Type} (g : α → Option β) (l : List α) (a : α) :
    (l ++ [a]).findSome? g = (l.findSome? g).or (g a) := by
  rw [List.findSome?_append]
  cases h : g a <;> simp [List.findSome?_cons, h]

theorem lastWrite_cons {F V : Type} [DecidableEq F] (r : Dict F V) (rs : List (Dict F V)) (f : F) :
    lastWrite (r :: rs) f = (lastWrite rs f).or (lastVal r f) := by
  unfold lastWrite
  rw [List.reverse_cons, findSome?_or_single]

theorem lastContrib_cons {F V : Type} [DecidableEq F] (r : Dict F V) (rs : List (Dict F V)) (f : F) :
    lastContrib (r :: rs) f = (lastContrib rs f).or (dget r f) := by
  unfold lastContrib
  rw [List.reverse_cons, findSome?_or_single]

theorem dget_foldl_dupdate {F V : Type} [DecidableEq F] (rs : List (Dict F V)) (d : Dict F V) (f : F) :
    dget (rs.foldl dupdate d) f = (lastWrite rs f).or (dget d f) := by
  induction rs generalizing d with
  | nil => simp [lastWrite_nil]
  | cons r rest ih =>
    rw [List.foldl_cons, ih, dget_dupdate, lastWrite_cons, Option.or_assoc]

theorem dget_mergeGroup {F V : Type} [DecidableEq F] (rs : List (Dict F V)) (f : F) :
    dget (mergeGroup rs) f = lastWrite rs f := by
  unfold mergeGroup
  rw [dget_foldl_dupdate, dget_nil, Option.or_none]

theorem lastVal_eq_dget_of_wf {F V : Type} [DecidableEq F] {d : Dict F V}
    (h : DictWF d) (f : F) : lastVal d f = dget d f := by
  induction d with
  | nil => rfl
  | cons p rest ih =>
    have h2 : p.1 ∉ rest.map Prod.fst ∧ (rest.map Prod.fst).Nodup := by
      rw [DictWF, List.map_cons, List.nodup_cons] at h
      exact h
    rw [lastVal_cons, dget_cons, ih h2.2]
    by_cases hp : p.1 = f
    · subst hp
      rw [dget_eq_none_of_not_mem_keys h2.1]
      simp
    · simp [hp]

theorem findSome?_congr_on {α β : Type} {l : List α} {f g : α → Option β}
    (h : ∀ x ∈ l, f x = g x) : l.findSome? f = l.findSome? g := by
  induction l with
  | nil => rfl
  | cons a t ih =>
    rw [List.findSome?_cons, List.findSome?_cons, h a (List.mem_cons_self a t),
      ih (fun x hx => h x (List.mem_cons_of_mem a hx))]

theorem lastWrite_eq_lastContrib {F V : Type} [DecidableEq F] {rs : List (Dict F V)}
    (h : ∀ r ∈ rs, DictWF r) (f : F) : lastWrite rs f = lastContrib rs f := by
  unfold lastWrite lastContrib
  exact findSome?_congr_on (fun r hr => lastVal_eq_dget_of_wf (h r (List.mem_reverse.mp hr)) f)

-- ---------------------------------------------------------------------------
-- grouper structure lemmas
-- ---------------------------------------------------------------------------

theorem zipLongestChunks_nil {α : Type} (n : Nat) (fill : α) :
    zipLongestChunks n fill [] = [] := by
  rw [zipLongestChunks]
  split <;> rfl

theorem zipLongestChunks_cons {α : Type} (n : Nat) (hn : n ≠ 0) (fill x : α) (rest : List α) :
    zipLongestChunks n fill (x :: rest) =
      ((x :: rest).take n ++ List.replicate (n - (x :: rest).length) fill) ::
        zipLongestChunks n fill ((x :: rest).drop n) := by
  rw [zipLongestChunks]
  simp [hn]

theorem grouper_nil {α : Type} (n : Nat) (fill : Option α) :
    grouper ([] : List (Option α)) n fill = [] := by
  simp [grouper, zipLongestChunks_nil]

theorem grouper_cons {α : Type} (n : Nat) (hn : n ≠ 0) (fill x : Option α)
    (rest : List (Option α)) :
    grouper (x :: rest) n fill =
      (((x :: rest).take n ++ List.replicate (n - (x :: rest).length) fill).filter
          (fun y => y.isSome)) ::
        grouper ((x :: rest).drop n) n fill := by
  unfold grouper
  rw [zipLongestChunks_cons n hn]
  simp

theorem filter_isSome_replicate_fill {α : Type} (k : Nat) :
    (List.replicate k (none : Option α)).filter (fun y => y.isSome) = [] := by
  induction k with
  | zero => rfl
  | succ m ih => simp [List.replicate_succ, List.filter_cons, ih]

theorem filter_isSome_of_no_none {α : Type} {l : List (Option α)}
    (h : ∀ x ∈ l, x ≠ none) : l.filter (fun y => y.isSome) = l :=
  List.filter_eq_self.mpr (fun x hx => Option.isSome_iff_ne_none.mpr (h x hx))

theorem grouper_ne_nil {α : Type} (n : Nat) (hn : n ≠ 0) (fill x : Option α)
    (rest : List (Option α)) : grouper (x :: rest) n fill ≠ [] := by
  rw [grouper_cons n hn]
  exact List.cons_ne_nil _ _

/-- The full structure of `grouper` on a sequence that does not contain the
sentinel `None`, by strong induction on the length. -/
theorem grouper_struct {α : Type} (n : Nat) (hn : 1 ≤ n) :
    ∀ (L : Nat) (xs : List (Option α)), xs.length ≤ L → (∀ x ∈ xs, x ≠ none) →
      (grouper xs n none).flatten = xs ∧
      (grouper xs n none).length = (xs.length + n - 1) / n ∧
      (∀ g ∈ (grouper xs n none).dropLast, g.length = n) ∧
      (∀ g, (grouper xs n none).getLast? = some g →
        g.length = if xs.length % n = 0 then n else xs.length % n) := by
  intro L
  induction L with
  | zero =>
    intro xs hlen _
    have hx : xs = [] := List.eq_nil_of_length_eq_zero (Nat.le_zero.mp hlen)
    subst hx
    refine ⟨by simp [grouper_nil], ?_, ?_, ?_⟩
    · rw [grouper_nil]
      simp only [List.length_nil, Nat.zero_add]
      exact (Nat.div_eq_of_lt (by omega)).symm
    · intro g hg; simp [grouper_nil] at hg
    · intro g hg; simp [grouper_nil] at hg
  | succ L ih =>
    intro xs hlen hx
    match xs with
    | [] =>
      refine ⟨by simp [grouper_nil], ?_, ?_, ?_⟩
      · rw [grouper_nil]
        simp only [List.length_nil, Nat.zero_add]
        exact (Nat.div_eq_of_lt (by omega)).symm
      · intro g hg; simp [grouper_nil] at hg
      · intro g hg; simp [grouper_nil] at hg
    | x :: rest =>
      have hn0 : n ≠ 0 := by omega
      set L0 := (x :: rest).length with hL0
      have hL0pos : 0 < L0 := by simp [hL0]
      have hhead : ((x :: rest).take n ++
          List.replicate (n - L0) (none : Option α)).filter (fun y => y.isSome)
          = (x :: rest).take n := by
        rw [List.filter_append, filter_isSome_replicate_fill, List.append_nil]
        exact filter_isSome_of_no_none
          (fun y hy => hx y (List.take_subset n (x :: rest) hy))
      by_cases hle : L0 ≤ n
      · have hdrop : (x :: rest).drop n = [] := by
          apply List.drop_eq_nil_of_le
          simpa [hL0] using hle
        have hg : grouper (x :: rest) n none = [(x :: rest).take n] := by
          rw [grouper_cons n hn0, hhead, hdrop, grouper_nil]
        have htake : (x :: rest).take n = x :: rest :=
          List.take_of_length_le (by simpa [hL0] using hle)
        have h1 : L0 + n - 1 = L0 - 1 + n := by omega
        refine ⟨by simp [hg, htake], ?_, ?_, ?_⟩
        · rw [hg]
          simp only [List.length_singleton]
          rw [h1, Nat.add_div_right _ (by omega : 0 < n),
            Nat.div_eq_of_lt (by omega : L0 - 1 < n)]
        · intro g hg2
          rw [hg] at hg2
          simp at hg2
        · intro g hg2
          rw [hg] at hg2
          simp at hg2
          subst hg2
          rw [htake, ← hL0]
          rcases Nat.lt_or_ge L0 n with hlt | hge
          · rw [if_neg (by rw [Nat.mod_eq_of_lt hlt]; omega), Nat.mod_eq_of_lt hlt]
          · have heq : L0 = n := by omega
            rw [heq, Nat.mod_self, if_pos rfl]
      · push_neg at hle
        have hle2 : n < rest.length + 1 := by
          have := hle
          rw [hL0] at this
          simpa using this
        have hdropne : (x :: rest).drop n ≠ [] := by
          intro h
          have h2 := congrArg List.length h
          simp only [List.length_drop, List.length_cons, List.length_nil] at h2
          omega
        have hdroplen : ((x :: rest).drop n).length = L0 - n := by
          simp [List.length_drop, hL0]
        have hlen3 : rest.length + 1 ≤ L + 1 := by simpa [hL0] using hlen
        have hrec := ih ((x :: rest).drop n)
          (by rw [hdroplen, hL0]; simp only [List.length_cons]; omega)
          (fun y hy => hx y (List.drop_subset n (x :: rest) hy))
        have hg : grouper (x :: rest) n none =
            (x :: rest).take n :: grouper ((x :: rest).drop n) n none := by
          rw [grouper_cons n hn0, hhead]
        have htail_ne : grouper ((x :: rest).drop n) n none ≠ [] := by
          rcases List.exists_cons_of_ne_nil hdropne with ⟨y, ys, hys⟩
          rw [hys]
          exact grouper_ne_nil n hn0 none y ys
        have htakelen : ((x :: rest).take n).length = n := by
          rw [List.length_take]
          simp only [List.length_cons]
          omega
        refine ⟨?_, ?_, ?_, ?_⟩
        · rw [hg]
          simp only [List.flatten_cons]
          rw [hrec.1, List.take_append_drop]
        · rw [hg]
          simp only [List.length_cons]
          rw [hrec.2.1, hdroplen]
          have h1 : L0 + n - 1 = ((L0 - n) + n - 1) + n := by omega
          rw [h1, Nat.add_div_right _ (by omega : 0 < n)]
        · intro g hg2
          rw [hg] at hg2
          rcases List.exists_cons_of_ne_nil htail_ne with ⟨t, ts, hts⟩
          rw [hts] at hg2
          rw [List.dropLast_cons₂] at hg2
          rcases List.mem_cons.mp hg2 with h1 | h2
          · rw [h1]; exact htakelen
          · exact hrec.2.2.1 g (by rw [hts]; exact h2)
        · intro g hg2
          rw [hg] at hg2
          rcases List.exists_cons_of_ne_nil htail_ne with ⟨t, ts, hts⟩
          rw [hts] at hg2
          rw [List.getLast?_cons_cons] at hg2
          have hlast := hrec.2.2.2 g (by rw [hts]; exact hg2)
          rw [hdroplen] at hlast
          rw [Nat.mod_eq_sub_mod (by omega : n ≤ L0)]
          exact hlast

-- ---------------------------------------------------------------------------
-- key-grouping lemmas
-- ---------------------------------------------------------------------------

theorem dget_addToGroup {V R : Type} [DecidableEq V] (gs : List (V × List R)) (kv kv' : V) (r : R) :
    dget (addToGroup gs kv r) kv' =
      if kv' = kv then some ((dget gs kv).getD [] ++ [r]) else dget gs kv' := by
  induction gs with
  | nil =>
    by_cases hk : kv' = kv
    · simp [addToGroup, dget_cons, dget_nil, hk]
    · have hk2 : ¬ kv = kv' := fun h => hk h.symm
      simp [addToGroup, dget_cons, dget_nil, hk, hk2]
  | cons g rest ih =>
    rcases g with ⟨k, rs⟩
    by_cases hkv : kv = k
    · subst hkv
      by_cases hk : kv' = kv
      · subst hk
        simp [addToGroup, dget_cons]
      · have hk2 : ¬ kv = kv' := fun h => hk h.symm
        simp [addToGroup, dget_cons, hk, hk2]
    · by_cases hk : kv' = k
      · subst hk
        have h2 : ¬ kv' = kv := fun h => hkv h.symm
        simp [addToGroup, hkv, dget_cons, h2]
      · have hk2 : ¬ k = kv' := fun h => hk h.symm
        simp [addToGroup, hkv, dget_cons, hk2, ih]
        by_cases h3 : kv' = kv
        · subst h3
          have hk3 : ¬ k = kv' := hk2
          simp [dget_cons, hk3]
        · simp [h3]

theorem addToGroup_keys {V R : Type} [DecidableEq V] (gs : List (V × List R)) (kv : V) (r : R) :
    (addToGroup gs kv r).map Prod.fst =
      if kv ∈ gs.map Prod.fst then gs.map Prod.fst else gs.map Prod.fst ++ [kv] := by
  induction gs with
  | nil => simp [addToGroup]
  | cons g rest ih =>
    rcases g with ⟨k, rs⟩
    by_cases hkv : kv = k
    · subst hkv
      simp [addToGroup]
    · have hk2 : ¬ k = kv := fun h => hkv h.symm
      by_cases hmem : kv ∈ rest.map Prod.fst
      · simp [addToGroup, hkv, ih, hmem, hk2]
      · simp [addToGroup, hkv, ih, hmem, hk2]

theorem addToGroup_nodup {V R : Type} [DecidableEq V] {gs : List (V × List R)} (kv : V) (r : R)
    (h : (gs.map Prod.fst).Nodup) : ((addToGroup gs kv r).map Prod.fst).Nodup := by
  rw [addToGroup_keys]
  by_cases hmem : kv ∈ gs.map Prod.fst
  · simpa [hmem] using h
  · rw [if_neg hmem, List.nodup_append]
    exact ⟨h, List.nodup_singleton kv, by simpa [List.disjoint_singleton] using hmem⟩

theorem addToGroup_mem_keys {V R : Type} [DecidableEq V] (gs : List (V × List R)) (kv kv' : V) (r : R) :
    kv' ∈ (addToGroup gs kv r).map Prod.fst ↔ kv' ∈ gs.map Prod.fst ∨ kv' = kv := by
  rw [addToGroup_keys]
  by_cases hmem : kv ∈ gs.map Prod.fst
  · rw [if_pos hmem]
    constructor
    · exact fun h => Or.inl h
    · rintro (h | rfl)
      · exact h
      · exact hmem
  · rw [if_neg hmem]
    simp

/-- The grouping fold of `process_item`, generalized over the accumulator:
it succeeds when every item carries the key field, its group keys stay
duplicate-free, the set of group keys grows by exactly the key values seen,
and each key's group collects exactly that key's items in arrival order. -/
theorem sortByKey_fold {F V : Type} [DecidableEq F] [DecidableEq V] (key : F) :
    ∀ (items : List (Dict F V)) (gs : List (V × List (Dict F V))),
      (∀ i ∈ items, (dget i key).isSome) →
      ∃ gs2,
        items.foldlM (fun gs i => (dget i key).map (fun kv => addToGroup gs kv i)) gs = some gs2 ∧
        ((gs.map Prod.fst).Nodup → (gs2.map Prod.fst).Nodup) ∧
        (∀ kv, kv ∈ gs2.map Prod.fst ↔
          kv ∈ gs.map Prod.fst ∨ ∃ i ∈ items, dget i key = some kv) ∧
        (∀ kv, (dget gs2 kv).getD [] =
          (dget gs kv).getD [] ++ items.filter (fun i => decide (dget i key = some kv))) := by
  intro items
  induction items with
  | nil =>
    intro gs _
    refine ⟨gs, rfl, fun h => h, ?_, ?_⟩
    · intro kv; simp
    · intro kv; simp
  | cons i rest ih =>
    intro gs hall
    rcases Option.isSome_iff_exists.mp (hall i (List.mem_cons_self i rest)) with ⟨kv0, hkv0⟩
    rcases ih (addToGroup gs kv0 i) (fun j hj => hall j (List.mem_cons_of_mem i hj)) with
      ⟨gs2, hfold, hnodup, hmem, hgroups⟩
    refine ⟨gs2, ?_, ?_, ?_, ?_⟩
    · rw [List.foldlM_cons, hkv0]
      simpa using hfold
    · intro h
      exact hnodup (addToGroup_nodup kv0 i h)
    · intro kv
      rw [hmem kv, addToGroup_mem_keys]
      constructor
      · rintro ((h | rfl) | ⟨j, hj, hjkv⟩)
        · exact Or.inl h
        · exact Or.inr ⟨i, List.mem_cons_self i rest, hkv0⟩
        · exact Or.inr ⟨j, List.mem_cons_of_mem i hj, hjkv⟩
      · rintro (h | ⟨j, hj, hjkv⟩)
        · exact Or.inl (Or.inl h)
        · rcases List.mem_cons.mp hj with rfl | hj2
          · exact Or.inl (Or.inr (by rw [hkv0] at hjkv; exact (Option.some_inj.mp hjkv).symm))
          · exact Or.inr ⟨j, hj2, hjkv⟩
    · intro kv
      rw [hgroups kv, dget_addToGroup]
      by_cases hk : kv = kv0
      · subst hk
        rw [if_pos rfl, List.filter_cons, if_pos (by simp [hkv0])]
        simp [Option.getD_some, List.append_assoc]
      · rw [if_neg hk, List.filter_cons, if_neg (by simp [hkv0]; exact fun h => hk h.symm)]

-- ---------------------------------------------------------------------------
-- remaining helpers
-- ---------------------------------------------------------------------------

theorem reachable_budget {n L : Nat} {s : MapState} (h : Reachable n L s) :
    s.available + s.held + s.outstanding ≤ n := by
  induction h with
  | refl => simp [initState]
  | tail _ hstep ih =>
    cases hstep <;> simp_all <;> omega

theorem mem_foldl_append {β γ : Type} (f : γ → List β) (l : List γ) (acc : List β) (x : β) :
    x ∈ l.foldl (fun a c => a ++ f c) acc ↔ x ∈ acc ∨ ∃ c ∈ l, x ∈ f c := by
  induction l generalizing acc with
  | nil => simp
  | cons c t ih =>
    rw [List.foldl_cons, ih]
    simp only [List.mem_append, List.mem_cons]
    constructor
    · rintro ((h | h) | ⟨c2, hc2, hx⟩)
      · exact Or.inl h
      · exact Or.inr ⟨c, Or.inl rfl, h⟩
      · exact Or.inr ⟨c2, Or.inr hc2, hx⟩
    · rintro (h | ⟨c2, (rfl | hc2), hx⟩)
      · exact Or.inl (Or.inl h)
      · exact Or.inl (Or.inr hx)
      · exact Or.inr ⟨c2, hc2, hx⟩

-- ---------------------------------------------------------------------------
-- claim theorems
-- ---------------------------------------------------------------------------

/-- Claim C1: during a pipeline run with `chunk_size = n`, in every reachable
interleaving of producer iteration and transform completions of
`AsyncBackPressuredMap`, the number of transforms submitted but not yet
completed never exceeds `n`: each submission first consumed one unit of the
`BoundedSemaphore(n)`, and a unit is released only when a transform
completes. -/
theorem backpressure_bound {n L : Nat} {s : MapState} (h : Reachable n L s) :
    s.outstanding ≤ n := by
  have hb := reachable_budget h
  omega

theorem backpressure_bound_witness :
    Reachable 2 3 ⟨2, 1, 1, 0⟩ ∧ (⟨2, 1, 1, 0⟩ : MapState).outstanding ≤ 2 := by
  have hr : Reachable 2 3 ⟨2, 1, 1, 0⟩ :=
    Relation.ReflTransGen.single (MapStep.anext (initState 2 3) (by decide) (by decide))
  exact ⟨hr, backpressure_bound hr⟩

/-- Claim C2 (code evidence): when the transform raises, awaiting the
`process_and_release` handle propagates the exception (`Except.error`), but the
semaphore counter is left unchanged — the release only happens on the success
path (`sem + 1`), so the acquired unit is lost on failure. -/
theorem process_and_release_failure_no_release {E B : Type} (sem : Nat) (e : E) (b : B) :
    process_and_release sem (Outcome.err e : Outcome E B) = (sem, Except.error e) ∧
    process_and_release sem (Outcome.ok b : Outcome E B) = (sem + 1, Except.ok b) :=
  ⟨rfl, rfl⟩

/-- Claim C3 (counterexample): for the input sequence `[None]` with
`n = 1` (so `L = 1`, `L mod n = 0`), `grouper` yields one group of size `0`
(not `n = 1`) and the concatenation of its groups is `[]`, not the original
sequence — the grouper drops `None` elements of the source itself, not only
padding. -/
theorem grouper_claim_counterexample :
    ¬ ((grouper [(none : Option Nat)] 1 none).length = 1 ∧
       (∀ g ∈ grouper [(none : Option Nat)] 1 none, g.length = 1) ∧
       (grouper [(none : Option Nat)] 1 none).flatten = [none]) := by
  intro h
  have hg : grouper [(none : Option Nat)] 1 none = [[]] := by
    rw [grouper_cons 1 (by decide) none none []]
    simp [grouper_nil]
  rcases h with ⟨_, hsz, _⟩
  have h0 := hsz [] (by rw [hg]; exact List.mem_singleton.mpr rfl)
  simp at h0

/-- Claim C3 (amended): for every chunk size `n ≥ 1` and every finite input
sequence that does not contain `None` (the padding sentinel), `grouper`
produces exactly `⌈L/n⌉` groups, every group except possibly the last has
exactly `n` elements, the last has `L mod n` elements when `L mod n ≠ 0` (and
`n` otherwise), and concatenating all groups reproduces the original sequence
in order. -/
theorem grouper_chunking {α : Type} (n : Nat) (xs : List (Option α))
    (hn : 1 ≤ n) (hx : ∀ x ∈ xs, x ≠ none) :
    (grouper xs n none).length = (xs.length + n - 1) / n ∧
    (∀ g ∈ (grouper xs n none).dropLast, g.length = n) ∧
    (∀ g, (grouper xs n none).getLast? = some g →
      g.length = if xs.length % n = 0 then n else xs.length % n) ∧
    (grouper xs n none).flatten = xs := by
  have h := grouper_struct n hn xs.length xs (le_refl _) hx
  exact ⟨h.2.1, h.2.2.1, h.2.2.2, h.1⟩

theorem grouper_chunking_witness :
    (1 ≤ 2 ∧ ∀ x ∈ [some 1, some 2, some 3], x ≠ (none : Option Nat)) ∧
    ((grouper [some 1, some 2, some 3] 2 none).length =
        (([some 1, some 2, some 3] : List (Option Nat)).length + 2 - 1) / 2 ∧
      (∀ g ∈ (grouper [some 1, some 2, some 3] 2 none).dropLast, g.length = 2) ∧
      (∀ g, (grouper [some 1, some 2, some 3] 2 none).getLast? = some g →
        g.length = if ([some 1, some 2, some 3] : List (Option Nat)).length % 2 = 0
          then 2 else ([some 1, some 2, some 3] : List (Option Nat)).length % 2) ∧
      (grouper [some 1, some 2, some 3] 2 none).flatten = [some 1, some 2, some 3]) :=
  ⟨⟨by decide, by decide⟩, grouper_chunking 2 [some 1, some 2, some 3] (by decide) (by decide)⟩

/-- Claim C4: for every list of records each carrying the target key field,
`process_item` returns exactly one merged record per distinct key value in the
input — its output length is the number of distinct key values — every key
value present in the input appears as the key of some output record, and every
output record's key is a key value of some input record. -/
theorem process_item_one_per_key {F V : Type} [DecidableEq F] [DecidableEq V]
    (key : F) (items : List (Dict F V))
    (hall : ∀ i ∈ items, (dget i key).isSome) :
    ∃ out, process_item key items = some out ∧
      out.length = (items.filterMap (fun i => dget i key)).dedup.length ∧
      (∀ kv, (∃ i ∈ items, dget i key = some kv) → ∃ o ∈ out, dget o key = some kv) ∧
      (∀ o ∈ out, ∃ i ∈ items, dget i key = dget o key) := by
  rcases sortByKey_fold key items [] hall with ⟨gs2, hfold, hnodup, hmem, _⟩
  have hsk : sortByKey key items = some gs2 := hfold
  refine ⟨gs2.map (fun g => dset (mergeGroup g.2) key g.1), ?_, ?_, ?_, ?_⟩
  · unfold process_item
    rw [hsk]
    rfl
  · have hnd : (gs2.map Prod.fst).Nodup := hnodup (by simp)
    have hmem2 : ∀ kv, kv ∈ gs2.map Prod.fst ↔
        kv ∈ items.filterMap (fun i => dget i key) := by
      intro kv
      rw [hmem kv, List.mem_filterMap]
      simp
    have hfin : (gs2.map Prod.fst).toFinset =
        (items.filterMap (fun i => dget i key)).toFinset := by
      apply Finset.ext
      intro kv
      simp only [List.mem_toFinset]
      exact hmem2 kv
    rw [List.length_map, ← List.length_map gs2 Prod.fst, ← List.Nodup.dedup hnd,
      ← List.card_toFinset, hfin, List.card_toFinset]
  · intro kv hkv
    have hk2 : kv ∈ gs2.map Prod.fst := (hmem kv).mpr (Or.inr hkv)
    rcases List.mem_map.mp hk2 with ⟨g, hg, hfst⟩
    refine ⟨dset (mergeGroup g.2) key g.1, List.mem_map.mpr ⟨g, hg, rfl⟩, ?_⟩
    rw [dget_dset, if_pos rfl, hfst]
  · intro o ho
    rcases List.mem_map.mp ho with ⟨g, hg, rfl⟩
    have hk2 : g.1 ∈ gs2.map Prod.fst := List.mem_map.mpr ⟨g, hg, rfl⟩
    rcases (hmem g.1).mp hk2 with h | ⟨i, hi, hik⟩
    · simp at h
    · exact ⟨i, hi, by rw [hik, dget_dset, if_pos rfl]⟩

theorem process_item_one_per_key_witness :
    (∀ i ∈ [[(0, 1), (2, 5)], [(0, 1), (3, 7)], [(0, 2)]], (dget i (0 : Nat)).isSome) ∧
    (∃ out, process_item (0 : Nat) [[(0, 1), (2, 5)], [(0, 1), (3, 7)], [(0, 2)]] = some out ∧
      out.length = (([[(0, 1), (2, 5)], [(0, 1), (3, 7)], [(0, 2)]] :
        List (Dict Nat Nat)).filterMap (fun i => dget i 0)).dedup.length ∧
      (∀ kv, (∃ i ∈ [[(0, 1), (2, 5)], [(0, 1), (3, 7)], [(0, 2)]], dget i 0 = some kv) →
        ∃ o ∈ out, dget o 0 = some kv) ∧
      (∀ o ∈ out, ∃ i ∈ [[(0, 1), (2, 5)], [(0, 1), (3, 7)], [(0, 2)]],
        dget i 0 = dget o 0)) :=
  ⟨by decide, process_item_one_per_key 0 [[(0, 1), (2, 5)], [(0, 1), (3, 7)], [(0, 2)]]
    (by decide)⟩

/-- Claim C5: for every key group, the merged record agrees on every non-key
field with the last-arriving record of that group (the group being the input
records with that key value, in arrival order) that contains the field
(shallow-merge, last write wins), and its key field holds the group's key
value (written last, so no record's own copy of the key field can determine
the output key). -/
theorem process_item_group_merge {F V : Type} [DecidableEq F] [DecidableEq V]
    (key : F) (items : List (Dict F V)) (kv : V)
    (hall : ∀ i ∈ items, (dget i key).isSome)
    (hwf : ∀ i ∈ items, DictWF i)
    (hkv : ∃ i ∈ items, dget i key = some kv) :
    ∃ out o, process_item key items = some out ∧ o ∈ out ∧
      dget o key = some kv ∧
      (∀ f, f ≠ key → dget o f =
        lastContrib (items.filter (fun i => decide (dget i key = some kv))) f) := by
  rcases sortByKey_fold key items [] hall with ⟨gs2, hfold, _, hmem, hgroups⟩
  have hsk : sortByKey key items = some gs2 := hfold
  have hkeys : kv ∈ gs2.map Prod.fst := (hmem kv).mpr (Or.inr hkv)
  have hiss : (dget gs2 kv).isSome := (dget_isSome_iff_mem_keys gs2 kv).mpr hkeys
  rcases Option.isSome_iff_exists.mp hiss with ⟨rs, hrs⟩
  have hrs2 : rs = items.filter (fun i => decide (dget i key = some kv)) := by
    have h2 := hgroups kv
    rw [hrs] at h2
    simpa using h2
  have hmemg : (kv, rs) ∈ gs2 := dget_some_mem hrs
  have hwfg : ∀ r ∈ rs, DictWF r := by
    intro r hr
    rw [hrs2] at hr
    exact hwf r (List.mem_filter.mp hr).1
  refine ⟨gs2.map (fun g => dset (mergeGroup g.2) key g.1), dset (mergeGroup rs) key kv,
    ?_, List.mem_map.mpr ⟨(kv, rs), hmemg, rfl⟩, ?_, ?_⟩
  · unfold process_item
    rw [hsk]
    rfl
  · rw [dget_dset, if_pos rfl]
  · intro f hf
    rw [dget_dset, if_neg hf, dget_mergeGroup, lastWrite_eq_lastContrib hwfg f, hrs2]

theorem process_item_group_merge_witness :
    ((∀ i ∈ [[(0, 1), (2, 5)], [(0, 1), (3, 7)], [(0, 2)]], (dget i (0 : Nat)).isSome) ∧
     (∀ i ∈ [[(0, 1), (2, 5)], [(0, 1), (3, 7)], [(0, 2)]], DictWF i) ∧
     (∃ i ∈ [[(0, 1), (2, 5)], [(0, 1), (3, 7)], [(0, 2)]], dget i (0 : Nat) = some 1)) ∧
    (∃ out o,
      process_item (0 : Nat) [[(0, 1), (2, 5)], [(0, 1), (3, 7)], [(0, 2)]] = some out ∧
      o ∈ out ∧ dget o 0 = some 1 ∧
      (∀ f, f ≠ 0 → dget o f =
        lastContrib (([[(0, 1), (2, 5)], [(0, 1), (3, 7)], [(0, 2)]] :
          List (Dict Nat Nat)).filter (fun i => decide (dget i 0 = some 1))) f)) :=
  ⟨⟨by decide, by simp only [DictWF]; decide, by decide⟩,
   process_item_group_merge 0 [[(0, 1), (2, 5)], [(0, 1), (3, 7)], [(0, 2)]] 1
     (by decide) (by simp only [DictWF]; decide) (by decide)⟩

/-- Claim C6: merging a key group that contains exactly one record yields a
record equal to that record on every field other than the key field, and its
key field is (re)set to the group's key value. -/
theorem process_item_singleton_identity {F V : Type} [DecidableEq F] [DecidableEq V]
    (key : F) (r : Dict F V) (kv : V)
    (hwf : DictWF r) (hr : dget r key = some kv) :
    ∃ o, process_item key [r] = some [o] ∧ dget o key = some kv ∧
      ∀ f, f ≠ key → dget o f = dget r f := by
  refine ⟨dset (mergeGroup [r]) key kv, ?_, ?_, ?_⟩
  · unfold process_item sortByKey
    simp [List.foldlM, hr, addToGroup]
  · rw [dget_dset, if_pos rfl]
  · intro f hf
    rw [dget_dset, if_neg hf, dget_mergeGroup, lastWrite_cons, lastWrite_nil,
      Option.none_or]
    exact lastVal_eq_dget_of_wf hwf f

theorem process_item_singleton_identity_witness :
    (DictWF ([(0, 1), (2, 5)] : Dict Nat Nat) ∧
      dget ([(0, 1), (2, 5)] : Dict Nat Nat) 0 = some 1) ∧
    (∃ o, process_item (0 : Nat) [[(0, 1), (2, 5)]] = some [o] ∧ dget o 0 = some 1 ∧
      ∀ f, f ≠ 0 → dget o f = dget ([(0, 1), (2, 5)] : Dict Nat Nat) f) :=
  ⟨⟨by simp [DictWF], by decide⟩,
   process_item_singleton_identity 0 [(0, 1), (2, 5)] 1 (by simp [DictWF]) (by decide)⟩

/-- Claim C7: `update_targets` stamps every record of one call: the single
timestamp `t` (computed once per call, `datetime.utcnow()`) is written into
every record's designated last-updated field, overwriting any prior value, and
every record handed to the sink carries that identical value. -/
theorem update_targets_uniform_stamp {F V : Type} [DecidableEq F] (luf : F) (t : V)
    (items : List (Dict F V)) :
    (stamp_items luf t items).length = items.length ∧
    (∀ o ∈ stamp_items luf t items, dget o luf = some t) ∧
    (∀ call ∈ update_targets luf t items, ∀ o ∈ call, dget o luf = some t) := by
  have hstamp : ∀ o ∈ stamp_items luf t items, dget o luf = some t := by
    intro o ho
    rcases List.mem_map.mp ho with ⟨i, _, rfl⟩
    rw [dget_dset, if_pos rfl]
  refine ⟨by simp [stamp_items], hstamp, ?_⟩
  intro call hcall o ho
  simp only [update_targets] at hcall
  split at hcall
  · rw [List.mem_singleton.mp hcall] at ho
    exact hstamp o ho
  · simp at hcall

/-- Claim C8: `update_targets` with an empty list performs zero sink update
calls and completes; with a non-empty list it performs exactly one batched
update call (passing the stamped items). -/
theorem update_targets_sink_calls {F V : Type} [DecidableEq F] (luf : F) (t : V)
    (items : List (Dict F V)) :
    (items = [] → update_targets luf t items = []) ∧
    (items ≠ [] → update_targets luf t items = [stamp_items luf t items]) := by
  constructor
  · rintro rfl
    rfl
  · intro h
    have hpos : 0 < items.length := List.length_pos.mpr h
    simp only [update_targets]
    rw [if_pos hpos]

theorem update_targets_sink_calls_witness :
    update_targets (0 : Nat) (5 : Nat) ([] : List (Dict Nat Nat)) = [] ∧
    update_targets (0 : Nat) (5 : Nat) [[(1, 2)]] = [stamp_items 0 5 [[(1, 2)]]] :=
  ⟨(update_targets_sink_calls 0 5 ([] : List (Dict Nat Nat))).1 rfl,
   (update_targets_sink_calls 0 5 [[(1, 2)]]).2 (by decide)⟩

/-- Claim C9: the `Projection_Builder` constructor raises `TypeError` whenever
`source_stores` is not a list, and `ValueError` whenever `fields_to_project`
is a list whose length differs from `source_stores`; in both cases the
`ensure_index` trace is empty, i.e. the error is raised before any store I/O. -/
theorem init_rejects_bad_args {F : Type} [DecidableEq F] (src : SrcArg F) (tk : F)
    (ftp : FTPArg F) :
    (src = SrcArg.nonList →
      Projection_Builder_init src tk ftp =
        ([], Except.error InitError.typeErrorSourceStores)) ∧
    (∀ ss fs, src = SrcArg.stores ss → ftp = FTPArg.specs fs → ss.length ≠ fs.length →
      Projection_Builder_init src tk ftp =
        ([], Except.error InitError.valueErrorLengthMismatch)) := by
  constructor
  · rintro rfl
    rfl
  · rintro ss fs rfl rfl h
    simp only [Projection_Builder_init]
    rw [if_pos h]

theorem init_rejects_bad_args_witness :
    Projection_Builder_init (SrcArg.nonList : SrcArg Nat) 0 FTPArg.defaultNone =
      ([], Except.error InitError.typeErrorSourceStores) ∧
    Projection_Builder_init (SrcArg.stores [⟨1⟩] : SrcArg Nat) 0 (FTPArg.specs []) =
      ([], Except.error InitError.valueErrorLengthMismatch) :=
  ⟨(init_rejects_bad_args (SrcArg.nonList : SrcArg Nat) 0 FTPArg.defaultNone).1 rfl,
   (init_rejects_bad_args (SrcArg.stores [⟨1⟩] : SrcArg Nat) 0 (FTPArg.specs [])).2
     [⟨1⟩] [] rfl rfl (by decide)⟩

/-- Claim C10: in `get_items`, a `None` key value — whether present in the
discovered key list or introduced as grouper padding — is filtered out of
every chunk of key values before the per-store query is issued (no chunk used
as a query criterion contains `None`), and every item yielded is tagged with a
non-`None` key value. -/
theorem get_items_no_none_keys {F W : Type} [DecidableEq F] [DecidableEq W]
    (target_key idf : F) (stores : List (SourceStoreModel F W × Dict F F))
    (keys : List (Option W)) (n : Nat) :
    (∀ ck ∈ chunked_keys keys n, (none : Option W) ∉ ck) ∧
    (∀ chunk ∈ get_items target_key idf stores keys n, ∀ item ∈ chunk,
      ∃ w : W, dget item target_key = some (some w)) := by
  have h1 : ∀ ck ∈ chunked_keys keys n, (none : Option W) ∉ ck := by
    intro ck hck hmem
    unfold chunked_keys at hck
    rcases List.mem_map.mp hck with ⟨ck0, _, rfl⟩
    have h2 := (List.mem_filter.mp hmem).2
    simp at h2
  refine ⟨h1, ?_⟩
  intro chunk hchunk item hitem
  unfold get_items at hchunk
  rcases List.mem_map.mp hchunk with ⟨ck, hck, rfl⟩
  unfold items_for_chunk at hitem
  rw [mem_foldl_append] at hitem
  rcases hitem with h | ⟨sp, _, hmem2⟩
  · simp at h
  rcases List.mem_filterMap.mp hmem2 with ⟨d, hd, hbuild⟩
  unfold build_item at hbuild
  rcases Option.map_eq_some'.mp hbuild with ⟨kv, hdget, hitem2⟩
  unfold query_in at hd
  have hd2 := (List.mem_filter.mp hd).2
  rw [hdget] at hd2
  have hkv : kv ∈ ck := by simpa using hd2
  have hkvne : kv ≠ none := fun h => h1 ck hck (h ▸ hkv)
  rcases Option.ne_none_iff_exists.mp hkvne with ⟨w, hw⟩
  refine ⟨w, ?_⟩
  rw [← hitem2, dget_dset, if_pos rfl, ← hw]
